import Mathlib

/-!
Shallow embedding of the queue / controller core of `donation-media-hub`
(`donation_media_hub/queue_manager.py`, `donation_media_hub/ui/controller.py`),
together with theorems settling the specification claims about it.

Modelling conventions:
- Python `float` timestamps are modelled as `ℚ` (the code only compares,
  subtracts and takes absolute values of timestamps).
- Python `str | None` fields are `Option String`; Python truthiness of such a
  value (`if not x`) is the predicate `strTruthy` below (falsy iff `None` or `""`).
- Filesystem / player / UI side effects (deleting artifacts, `player.stop()`,
  callbacks, JSON files) are either dropped or reified as returned data
  (e.g. `trim` also reports the list of removed victims whose artifacts the
  code unlinks).
- `QUEUE_LIMIT` is imported by the code from `donation_media_hub/config.py`;
  every definition takes the limit as an explicit `Nat` parameter and the
  theorems quantify over it.
-/

namespace DonationMediaHub

/-- The `Track` dataclass of `donation_media_hub/models.py`. -/
structure Track where
  track_id : String
  source : String
  created_ts : ℚ
  url : String
  title : String
  status : String := "queued"
  local_path : Option String := none
  error : Option String := none
deriving Repr, DecidableEq

/-- Python truthiness of a `str | None` value: falsy iff `None` or the empty
string. -/
def strTruthy (o : Option String) : Bool :=
  decide (o.getD "" ≠ "")

/-- The comparison key of `QueueManager.sort` (`key=lambda t: t.created_ts`). -/
def byCreated : Track → Track → Prop := fun a b => a.created_ts ≤ b.created_ts

instance : DecidableRel byCreated :=
  fun a b => inferInstanceAs (Decidable (a.created_ts ≤ b.created_ts))

instance : IsTotal Track byCreated := ⟨fun a b => le_total a.created_ts b.created_ts⟩

instance : IsTrans Track byCreated := ⟨fun _ _ _ hab hbc => le_trans hab hbc⟩

/-- Python `list.sort(key=...)`: a stable sort by `created_ts`. -/
def sortTracks (l : List Track) : List Track :=
  l.insertionSort byCreated

/-- The mutable state of `QueueManager`: the track list and the current
pointer. -/
structure QueueManager where
  tracks : List Track
  current_track_id : Option String
deriving Repr, DecidableEq

namespace QueueManager

/-- `QueueManager.get`: first track with the given id, if any. -/
def get (q : QueueManager) (track_id : String) : Option Track :=
  q.tracks.find? (fun t => t.track_id == track_id)

/-- `QueueManager.current`: `None` when `current_track_id` is falsy, else a
lookup by id. -/
def current (q : QueueManager) : Option Track :=
  if strTruthy q.current_track_id then q.get (q.current_track_id.getD "") else none

/-- `QueueManager.sort`. -/
def sort (q : QueueManager) : QueueManager :=
  { q with tracks := sortTracks q.tracks }

/-- `QueueManager._ensure_current`: keep a truthy, present current id;
otherwise point at the first track (or `None` when empty). -/
def ensure_current (q : QueueManager) : QueueManager :=
  if strTruthy q.current_track_id && (q.get (q.current_track_id.getD "")).isSome then q
  else { q with current_track_id := q.tracks.head?.map Track.track_id }

/-- `QueueManager.set_current`. -/
def set_current (q : QueueManager) (track_id : Option String) : QueueManager :=
  ensure_current { q with current_track_id := track_id }

/-- The `removable` predicate of `QueueManager._trim`: a track may be evicted
iff it is not the (truthy) kept current id and not `playing`/`paused`. -/
def removable (keep_current : Option String) (t : Track) : Bool :=
  !(strTruthy keep_current && (t.track_id == keep_current.getD "")) &&
  !(t.status == "playing" || t.status == "paused")

/-- One iteration body of the `_trim` while loop:
`idx = next((i for i, t in enumerate(tracks) if removable(t)), None)` followed
by `tracks.pop(idx)`; returns the popped victim and the remaining list, or
`none` when no track is removable. -/
def remove_first_removable (keep : Option String) : List Track → Option (Track × List Track)
  | [] => none
  | t :: ts =>
    if removable keep t then some (t, ts)
    else (remove_first_removable keep ts).map (fun p => (p.1, t :: p.2))

/-- The `while len(tracks) > QUEUE_LIMIT` loop of `_trim`, as fuel recursion.
Each iteration removes exactly one track, so running it with fuel equal to the
initial list length is exactly the while loop.  The second component collects
the removed victims (whose local artifacts the code unlinks). -/
def trim_go : Nat → Nat → Option String → List Track → List Track × List Track
  | 0, _, _, tracks => (tracks, [])
  | fuel + 1, limit, keep, tracks =>
    if tracks.length ≤ limit then (tracks, [])
    else
      match remove_first_removable keep tracks with
      | none => (tracks, [])
      | some (v, ts) =>
        let r := trim_go fuel limit keep ts
        (r.1, v :: r.2)

/-- `QueueManager._trim`: early return at or below the limit; otherwise record
`keep_current`, re-sort, and run the eviction loop. -/
def trim (limit : Nat) (q : QueueManager) : QueueManager :=
  if q.tracks.length ≤ limit then q
  else
    { q with
      tracks := (trim_go (sortTracks q.tracks).length limit q.current_track_id
          (sortTracks q.tracks)).1 }

/-- The victims removed (and whose artifacts are deleted) by `trim`. -/
def trim_removed (limit : Nat) (q : QueueManager) : List Track :=
  if q.tracks.length ≤ limit then []
  else
    (trim_go (sortTracks q.tracks).length limit q.current_track_id
        (sortTracks q.tracks)).2

/-- `QueueManager.append_if_new`: reject on an equal id, then on an equal url
with `created_ts` within 2.0 seconds; otherwise append, sort, trim and ensure
a current pointer, returning the new state plus the `bool` result. -/
def append_if_new (limit : Nat) (q : QueueManager) (track : Track) : QueueManager × Bool :=
  if q.tracks.any (fun t => t.track_id == track.track_id) then (q, false)
  else if q.tracks.any
      (fun t => t.url == track.url && decide (|t.created_ts - track.created_ts| ≤ 2)) then
    (q, false)
  else
    (ensure_current (trim limit (sort { q with tracks := q.tracks ++ [track] })), true)

/-- `QueueManager.index_of_current`: `-1` for a falsy current id or an absent
track, else the first matching index. -/
def index_of_current (q : QueueManager) : Int :=
  if strTruthy q.current_track_id then
    match q.tracks.findIdx? (fun t => t.track_id == q.current_track_id.getD "") with
    | some i => (i : Int)
    | none => -1
  else -1

/-- `QueueManager.next_id`. -/
def next_id (q : QueueManager) : Option String :=
  let i := q.index_of_current
  if i < 0 then none
  else if i + 1 ≥ (q.tracks.length : Int) then none
  else (q.tracks[(i + 1).toNat]?).map Track.track_id

/-- `QueueManager.prev_id`. -/
def prev_id (q : QueueManager) : Option String :=
  let i := q.index_of_current
  if i ≤ 0 then none
  else (q.tracks[(i - 1).toNat]?).map Track.track_id

/-- `QueueManager.clear`: empties the queue (deleting artifacts) and nulls the
current pointer. -/
def clear (_q : QueueManager) : QueueManager :=
  { tracks := [], current_track_id := none }

/-- A raw persisted entry: `Track(**raw)` either succeeds or raises.  `invalid`
stands for any raw dict whose deserialization raises. -/
inductive RawEntry where
  | valid (t : Track)
  | invalid
deriving Repr, DecidableEq

/-- `Track(**raw)` wrapped in the `try/except` of `QueueManager.load`. -/
def parse_track : RawEntry → Option Track
  | .valid t => some t
  | .invalid => none

/-- The persisted queue document: `{"tracks": [...], "current_track_id": ...}`. -/
structure QueueFileData where
  tracks : List RawEntry
  current_track_id : Option String
deriving Repr, DecidableEq

/-- `QueueManager.load`: keep the entries that deserialize, take the stored
current id, sort, and ensure a current pointer. -/
def load (data : QueueFileData) : QueueManager :=
  ensure_current (sort
    { tracks := data.tracks.filterMap parse_track,
      current_track_id := data.current_track_id })

/-- `QueueManager.save`: serialize every track (`asdict` always succeeds) plus
the current pointer. -/
def save (q : QueueManager) : QueueFileData :=
  { tracks := q.tracks.map RawEntry.valid, current_track_id := q.current_track_id }

end QueueManager

/-! ### Controller (`donation_media_hub/ui/controller.py`)

Only the queue-state effects of the controller are modelled.  Playback
commands (`player.stop()`, the `play_current` trigger after `download_done`
and navigation), persistence and UI callbacks are external side effects with
no bearing on the queue state transition itself. -/

namespace PlayerController

open QueueManager

/-- `PlayerController.STATUS_ORDER` (a dict; `.get st` below). -/
def STATUS_ORDER (s : String) : Option Nat :=
  if s = "new" then some 0
  else if s = "ready" then some 1
  else if s = "queued" then some 1
  else if s = "downloading" then some 2
  else if s = "playing" then some 3
  else if s = "paused" then some 3
  else if s = "played" then some 4
  else if s = "skipped" then some 4
  else if s = "failed" then some 4
  else none

/-- `PlayerController._status_rank`: `STATUS_ORDER.get(st, 0)`. -/
def status_rank (s : String) : Nat :=
  (STATUS_ORDER s).getD 0

/-- `PlayerController._normalize_status`. -/
def normalize_status (s : String) : String :=
  if s = "ready" then "queued" else s

/-- In-place mutation of the first track with the given id (the Python code
mutates the object returned by `QueueManager.get`, which is the first match). -/
def update_first (tid : String) (f : Track → Track) : List Track → List Track
  | [] => []
  | t :: ts => if t.track_id == tid then f t :: ts else t :: update_first tid f ts

/-- `PlayerController._set_current`: no-op on a falsy id, else
`queue.set_current` (plus persistence and UI callbacks, not modelled). -/
def ctrl_set_current (q : QueueManager) (track_id : Option String) : QueueManager :=
  if strTruthy track_id then q.set_current track_id else q

/-- The four event dict shapes drained by `process_ui_events`. -/
inductive UIEvent where
  | log (msg : String)
  | new_track (t : Track)
  | track_status (track_id : String) (status : Option String) (error : Option String)
  | download_done (track_id : String) (path : String)
deriving Repr, DecidableEq

/-- The queue-state effect of one event handled inside `process_ui_events`.
`track_status` carries `ev.get("status", t.status)` as an `Option` (absent key
defaults to the track's current status) and the optional error text (applied
only when truthy). -/
def apply_event (limit : Nat) (q : QueueManager) (ev : UIEvent) : QueueManager :=
  match ev with
  | .log _ => q
  | .new_track t =>
    match q.append_if_new limit t with
    | (q1, true) =>
      let q2 := q1.sort
      if q2.current_track_id = none then ctrl_set_current q2 (some t.track_id) else q2
    | (q1, false) => q1
  | .track_status tid status err =>
    match q.get tid with
    | none => q
    | some t =>
      let st := normalize_status (status.getD t.status)
      if status_rank st < status_rank t.status then q
      else
        { q with
          tracks := update_first tid (fun u =>
            let u1 := { u with status := st }
            if strTruthy err then { u1 with error := err } else u1) q.tracks }
  | .download_done tid path =>
    match q.get tid with
    | none => q
    | some _ =>
      { q with
        tracks := update_first tid (fun u =>
          let u1 := { u with local_path := some path }
          if u1.status ≠ "playing" ∧ u1.status ≠ "paused" then { u1 with status := "queued" }
          else u1) q.tracks }

/-- Result of `next_track`: the queue state plus whether "End of queue" was
reported (in which case the method returned before advancing). -/
structure NextTrackResult where
  queue : QueueManager
  end_of_queue : Bool
deriving Repr, DecidableEq

/-- `cur = self.queue.current(); if cur: cur.status = st` — mutates the first
track carrying the current id, when there is one. -/
def mark_current (q : QueueManager) (st : String) : QueueManager :=
  match q.current with
  | none => q
  | some t => { q with tracks := update_first t.track_id (fun u => { u with status := st }) q.tracks }

/-- `PlayerController.next_track`: mark the current track, stop the player
(external), then either report end of queue (falsy `next_id`) or advance via
`_set_current` (the subsequent `play_current` call is an external playback
command). -/
def next_track (auto : Bool) (q : QueueManager) : NextTrackResult :=
  let q1 := mark_current q (if auto then "played" else "skipped")
  let nid := q1.next_id
  if strTruthy nid then
    { queue := ctrl_set_current q1 nid, end_of_queue := false }
  else
    { queue := q1, end_of_queue := true }

/-- The acquisition window of `_download_loop`:
`tracks[idx : idx + 2]` around the current index, empty when there is no
current track. -/
def download_targets (q : QueueManager) : List Track :=
  match q.current with
  | none => []
  | some _ => ((q.tracks.drop q.index_of_current.toNat).take 2)

/-- The per-target skip conditions of `_download_loop`, as the complementary
"this target is attempted" predicate; `file_exists` abstracts
`Path(p).exists()`. -/
def attempts_download (file_exists : String → Bool) (t : Track) : Bool :=
  !(strTruthy t.local_path && file_exists (t.local_path.getD "")) &&
  !(t.status == "downloading" || t.status == "playing" || t.status == "paused")

/-- The event batch one `_download_loop` cycle emits: for every attempted
target in the window, a `downloading` status event, then on success the
`download_done` (plus a log line), and on failure a `failed` status event with
the error text.  `fetch` abstracts `downloader.download_mp3`. -/
def download_cycle_events (file_exists : String → Bool)
    (fetch : Track → Except String String) (q : QueueManager) : List UIEvent :=
  ((download_targets q).filter (attempts_download file_exists)).flatMap (fun t =>
    match fetch t with
    | .ok path =>
      [UIEvent.track_status t.track_id (some "downloading") none,
        UIEvent.download_done t.track_id path,
        UIEvent.log ("downloaded: " ++ path)]
    | .error e =>
      [UIEvent.track_status t.track_id (some "downloading") none,
        UIEvent.track_status t.track_id (some "failed") (some e)])

end PlayerController

/-! ### Lemmas about the queue operations -/

namespace QueueManager

theorem remove_first_removable_some {keep : Option String} {l l' : List Track} {v : Track}
    (h : remove_first_removable keep l = some (v, l')) :
    ∃ pre post, l = pre ++ v :: post ∧ l' = pre ++ post ∧
      (∀ u ∈ pre, removable keep u = false) ∧ removable keep v = true := by
  induction l generalizing l' with
  | nil => simp [remove_first_removable] at h
  | cons t ts ih =>
    rw [remove_first_removable] at h
    split at h
    · rename_i hr
      injection h with h
      injection h with h1 h2
      subst h1; subst h2
      exact ⟨[], ts, rfl, rfl, by simp, hr⟩
    · rename_i hr
      cases hrec : remove_first_removable keep ts with
      | none => rw [hrec] at h; simp at h
      | some p =>
        obtain ⟨v', ts'⟩ := p
        rw [hrec] at h
        simp only [Option.map_some'] at h
        injection h with h
        injection h with h1 h2
        subst h1
        obtain ⟨pre, post, e1, e2, e3, e4⟩ := ih hrec
        refine ⟨t :: pre, post, by simp [e1], by simp [← h2, e2], ?_, e4⟩
        intro u hu
        rcases List.mem_cons.mp hu with rfl | hu
        · simpa using hr
        · exact e3 u hu

theorem remove_first_removable_none {keep : Option String} {l : List Track} :
    remove_first_removable keep l = none ↔ ∀ u ∈ l, removable keep u = false := by
  induction l with
  | nil => simp [remove_first_removable]
  | cons t ts ih =>
    rw [remove_first_removable]
    by_cases hr : removable keep t
    · simp [hr]
    · rw [if_neg hr]
      simp only [Option.map_eq_none', ih, List.mem_cons]
      constructor
      · intro h u hu
        rcases hu with rfl | hu
        · simpa using hr
        · exact h u hu
      · intro h u hu
        exact h u (Or.inr hu)

theorem trim_go_fst_sublist (fuel limit : Nat) (keep : Option String) (l : List Track) :
    List.Sublist (trim_go fuel limit keep l).1 l := by
  induction fuel generalizing l with
  | zero => exact List.Sublist.refl l
  | succ fuel ih =>
    rw [trim_go]
    split
    · exact List.Sublist.refl l
    · cases hrec : remove_first_removable keep l with
      | none => exact List.Sublist.refl l
      | some p =>
        obtain ⟨v, ts⟩ := p
        obtain ⟨pre, post, e1, e2, -, -⟩ := remove_first_removable_some hrec
        have hsub : List.Sublist ts l := by
          rw [e1, e2]
          exact List.Sublist.append_left (List.sublist_cons_self v post) pre
        exact (ih ts).trans hsub

theorem trim_go_snd_mem (fuel limit : Nat) (keep : Option String) (l : List Track) :
    ∀ v ∈ (trim_go fuel limit keep l).2, v ∈ l ∧ removable keep v = true := by
  induction fuel generalizing l with
  | zero => intro v hv; simp [trim_go] at hv
  | succ fuel ih =>
    intro v hv
    rw [trim_go] at hv
    split at hv
    · simp at hv
    · cases hrec : remove_first_removable keep l with
      | none => rw [hrec] at hv; simp at hv
      | some p =>
        obtain ⟨w, ts⟩ := p
        rw [hrec] at hv
        obtain ⟨pre, post, e1, e2, -, e4⟩ := remove_first_removable_some hrec
        have hsub : List.Sublist ts l := by
          rw [e1, e2]
          exact List.Sublist.append_left (List.sublist_cons_self w post) pre
        simp only [List.mem_cons] at hv
        rcases hv with rfl | hv
        · exact ⟨by rw [e1]; exact List.mem_append_right pre (List.mem_cons_self v post), e4⟩
        · obtain ⟨h1, h2⟩ := ih ts v hv
          exact ⟨hsub.mem h1, h2⟩

theorem trim_go_perm (fuel limit : Nat) (keep : Option String) (l : List Track) :
    List.Perm ((trim_go fuel limit keep l).1 ++ (trim_go fuel limit keep l).2) l := by
  induction fuel generalizing l with
  | zero => simp [trim_go]
  | succ fuel ih =>
    rw [trim_go]
    split
    · simp
    · cases hrec : remove_first_removable keep l with
      | none => simp
      | some p =>
        obtain ⟨v, ts⟩ := p
        obtain ⟨pre, post, e1, e2, -, -⟩ := remove_first_removable_some hrec
        have h1 : List.Perm
            ((trim_go fuel limit keep ts).1 ++ v :: (trim_go fuel limit keep ts).2)
            (v :: ((trim_go fuel limit keep ts).1 ++ (trim_go fuel limit keep ts).2)) :=
          List.perm_middle
        have h2 : List.Perm (v :: ts) l := by
          rw [e1, e2]; exact List.perm_middle.symm
        exact (h1.trans ((ih ts).cons v)).trans h2

theorem trim_go_oldest (fuel limit : Nat) (keep : Option String) {l : List Track}
    (hs : l.Sorted byCreated) :
    ∀ v ∈ (trim_go fuel limit keep l).2, ∀ u ∈ (trim_go fuel limit keep l).1,
      removable keep u = true → v.created_ts ≤ u.created_ts := by
  induction fuel generalizing l with
  | zero => intro v hv; simp [trim_go] at hv
  | succ fuel ih =>
    rw [trim_go]
    split
    · intro v hv; simp at hv
    · cases hrec : remove_first_removable keep l with
      | none => intro v hv; simp at hv
      | some p =>
        obtain ⟨w, ts⟩ := p
        obtain ⟨pre, post, e1, e2, e3, e4⟩ := remove_first_removable_some hrec
        have hts_sub : List.Sublist ts l := by
          rw [e1, e2]
          exact List.Sublist.append_left (List.sublist_cons_self w post) pre
        have hts_sorted : ts.Sorted byCreated := hs.sublist hts_sub
        have hpost_sorted : (w :: post).Sorted byCreated := by
          refine hs.sublist ?_
          rw [e1]
          exact List.sublist_append_right pre (w :: post)
        have hw_le : ∀ u ∈ post, w.created_ts ≤ u.created_ts :=
          fun u hu => List.rel_of_sorted_cons hpost_sorted u hu
        have hmem_post : ∀ u ∈ ts, removable keep u = true → u ∈ post := by
          intro u hu hru
          rw [e2] at hu
          rcases List.mem_append.mp hu with hpre | hpost
          · rw [e3 u hpre] at hru; cases hru
          · exact hpost
        intro v hv u hu hru
        simp only [List.mem_cons] at hv
        have hu_ts : u ∈ ts := (trim_go_fst_sublist fuel limit keep ts).mem hu
        rcases hv with rfl | hv
        · exact hw_le u (hmem_post u hu_ts hru)
        · exact ih hts_sorted v hv u hu hru

theorem trim_go_snd_sorted (fuel limit : Nat) (keep : Option String) {l : List Track}
    (hs : l.Sorted byCreated) :
    (trim_go fuel limit keep l).2.Sorted byCreated := by
  induction fuel generalizing l with
  | zero => simp [trim_go, List.Sorted]
  | succ fuel ih =>
    rw [trim_go]
    split
    · simp [List.Sorted]
    · cases hrec : remove_first_removable keep l with
      | none => simp [List.Sorted]
      | some p =>
        obtain ⟨w, ts⟩ := p
        obtain ⟨pre, post, e1, e2, e3, e4⟩ := remove_first_removable_some hrec
        have hts_sub : List.Sublist ts l := by
          rw [e1, e2]
          exact List.Sublist.append_left (List.sublist_cons_self w post) pre
        have hts_sorted : ts.Sorted byCreated := hs.sublist hts_sub
        have hpost_sorted : (w :: post).Sorted byCreated := by
          refine hs.sublist ?_
          rw [e1]
          exact List.sublist_append_right pre (w :: post)
        refine List.Pairwise.cons ?_ (ih hts_sorted)
        intro v hv
        obtain ⟨hv_ts, hv_rem⟩ := trim_go_snd_mem fuel limit keep ts v hv
        rw [e2] at hv_ts
        rcases List.mem_append.mp hv_ts with hpre | hpost
        · rw [e3 v hpre] at hv_rem; cases hv_rem
        · exact List.rel_of_sorted_cons hpost_sorted v hpost

theorem trim_go_post (fuel limit : Nat) (keep : Option String) {l : List Track}
    (hf : l.length ≤ fuel) :
    (trim_go fuel limit keep l).1.length ≤ limit ∨
      ∀ u ∈ (trim_go fuel limit keep l).1, removable keep u = false := by
  induction fuel generalizing l with
  | zero =>
    left
    have : l.length = 0 := Nat.le_zero.mp hf
    simp [trim_go, this]
  | succ fuel ih =>
    rw [trim_go]
    split
    · left; assumption
    · cases hrec : remove_first_removable keep l with
      | none => right; exact remove_first_removable_none.mp hrec
      | some p =>
        obtain ⟨w, ts⟩ := p
        obtain ⟨pre, post, e1, e2, -, -⟩ := remove_first_removable_some hrec
        refine ih ?_
        have hl : l.length = ts.length + 1 := by
          rw [e1, e2]; simp [Nat.add_assoc, Nat.add_comm, Nat.add_left_comm]
        omega

theorem trim_go_keeps_nonremovable (fuel limit : Nat) (keep : Option String)
    {l : List Track} {t : Track} (ht : t ∈ l) (hnr : removable keep t = false) :
    t ∈ (trim_go fuel limit keep l).1 := by
  have hp := trim_go_perm fuel limit keep l
  have hmem : t ∈ (trim_go fuel limit keep l).1 ++ (trim_go fuel limit keep l).2 :=
    hp.mem_iff.mpr ht
  rcases List.mem_append.mp hmem with h | h
  · exact h
  · rw [(trim_go_snd_mem fuel limit keep l t h).2] at hnr; cases hnr

theorem ensure_current_tracks (q : QueueManager) : (ensure_current q).tracks = q.tracks := by
  unfold ensure_current; split <;> rfl

theorem set_current_tracks (q : QueueManager) (tid : Option String) :
    (q.set_current tid).tracks = q.tracks := by
  unfold set_current
  rw [ensure_current_tracks]

theorem trim_current (limit : Nat) (q : QueueManager) :
    (trim limit q).current_track_id = q.current_track_id := by
  unfold trim; split <;> rfl

theorem sort_current (q : QueueManager) :
    q.sort.current_track_id = q.current_track_id := rfl

theorem sortTracks_perm (l : List Track) : List.Perm (sortTracks l) l :=
  List.perm_insertionSort byCreated l

theorem sortTracks_sorted (l : List Track) : (sortTracks l).Sorted byCreated :=
  List.sorted_insertionSort byCreated l

theorem get_tracks_eq {q q' : QueueManager} (h : q.tracks = q'.tracks) (tid : String) :
    q.get tid = q'.get tid := by
  unfold get; rw [h]

end QueueManager

/-! ### The current-pointer invariant (`currentId` null iff queue empty,
otherwise naming a present track) -/

/-- The claimed invariant on the current pointer: null exactly on an empty
queue, otherwise the id of a present track. -/
def current_inv (q : QueueManager) : Prop :=
  match q.current_track_id with
  | none => q.tracks = []
  | some c => ∃ t ∈ q.tracks, t.track_id = c

instance (q : QueueManager) : Decidable (current_inv q) := by
  unfold current_inv
  rcases q with ⟨ts, c⟩
  cases c
  · exact inferInstanceAs (Decidable (ts = []))
  · exact inferInstanceAs (Decidable (∃ t ∈ ts, t.track_id = _))

namespace QueueManager

theorem current_inv_ensure (q : QueueManager) : current_inv (ensure_current q) := by
  unfold ensure_current
  split
  · rename_i h
    rw [Bool.and_eq_true] at h
    obtain ⟨h1, h2⟩ := h
    unfold current_inv
    cases hc : q.current_track_id with
    | none => rw [hc] at h1; simp [strTruthy] at h1
    | some c =>
      rw [hc] at h2
      simp only [Option.getD_some] at h2
      rw [Option.isSome_iff_exists] at h2
      obtain ⟨t, ht⟩ := h2
      refine ⟨t, List.mem_of_find?_eq_some ht, ?_⟩
      have := List.find?_some ht
      simpa using this
  · unfold current_inv
    cases hts : q.tracks with
    | nil => simp [hts]
    | cons a ts =>
      simp only [hts, List.head?_cons, Option.map_some']
      exact ⟨a, List.mem_cons_self a ts, rfl⟩

theorem current_inv_tracks_congr {q q' : QueueManager}
    (hc : q.current_track_id = q'.current_track_id)
    (hmem : ∀ t, t ∈ q.tracks ↔ t ∈ q'.tracks)
    (hnil : q.tracks = [] ↔ q'.tracks = [])
    (h : current_inv q) : current_inv q' := by
  unfold current_inv at h ⊢
  cases hcc : q'.current_track_id with
  | none => rw [hc, hcc] at h; exact hnil.mp h
  | some c =>
    rw [hc, hcc] at h
    obtain ⟨t, ht, he⟩ := h
    exact ⟨t, (hmem t).mp ht, he⟩

end QueueManager

/-! ### Controller lemmas -/

namespace PlayerController

theorem rank_lt_four_of_not_terminal {s : String}
    (h1 : s ≠ "played") (h2 : s ≠ "skipped") (h3 : s ≠ "failed") : status_rank s < 4 := by
  unfold status_rank STATUS_ORDER
  split_ifs <;> simp_all

theorem status_rank_le_four (s : String) : status_rank s ≤ 4 := by
  unfold status_rank STATUS_ORDER
  split_ifs <;> simp

theorem terminal_of_rank_ge_four {s : String} (h : 4 ≤ status_rank s) :
    s = "played" ∨ s = "skipped" ∨ s = "failed" := by
  by_contra hc
  push_neg at hc
  have := rank_lt_four_of_not_terminal hc.1 hc.2.1 hc.2.2
  omega

theorem rank_of_terminal {s : String}
    (h : s = "played" ∨ s = "skipped" ∨ s = "failed") : status_rank s = 4 := by
  rcases h with rfl | rfl | rfl <;> decide

theorem find?_update_first (tid : String) (f : Track → Track)
    (hf : ∀ u, (f u).track_id = u.track_id) (l : List Track) :
    (update_first tid f l).find? (fun t => t.track_id == tid)
      = (l.find? (fun t => t.track_id == tid)).map f := by
  induction l with
  | nil => rfl
  | cons t ts ih =>
    rw [update_first]
    by_cases h : t.track_id = tid
    · rw [if_pos (by simpa using h)]
      rw [List.find?_cons_of_pos _ (by simp [hf t, h]),
        List.find?_cons_of_pos _ (by simpa using h)]
      rfl
    · rw [if_neg (by simpa using h)]
      rw [List.find?_cons_of_neg _ (by simpa using h),
        List.find?_cons_of_neg _ (by simpa using h)]
      exact ih

theorem mem_update_first {tid : String} {f : Track → Track} {l : List Track} {t : Track}
    (hfind : l.find? (fun u => u.track_id == tid) = some t) :
    ∀ t' ∈ update_first tid f l, t' ∈ l ∨ t' = f t := by
  induction l with
  | nil => simp at hfind
  | cons a ts ih =>
    rw [update_first]
    by_cases h : a.track_id = tid
    · rw [List.find?_cons_of_pos _ (by simpa using h)] at hfind
      injection hfind with hfind
      subst hfind
      rw [if_pos (by simpa using h)]
      intro t' ht'
      rcases List.mem_cons.mp ht' with rfl | ht'
      · right; rfl
      · left; exact List.mem_cons_of_mem a ht'
    · rw [List.find?_cons_of_neg _ (by simpa using h)] at hfind
      rw [if_neg (by simpa using h)]
      intro t' ht'
      rcases List.mem_cons.mp ht' with rfl | ht'
      · left; exact List.mem_cons_self _ _
      · rcases ih hfind t' ht' with h1 | h1
        · left; exact List.mem_cons_of_mem a h1
        · right; exact h1

theorem update_first_map_track_id (tid : String) (f : Track → Track)
    (hf : ∀ u, (f u).track_id = u.track_id) (l : List Track) :
    (update_first tid f l).map Track.track_id = l.map Track.track_id := by
  induction l with
  | nil => rfl
  | cons a ts ih =>
    rw [update_first]
    split
    · simp [hf a]
    · simp [ih]

theorem findIdx?_by_id (l : List Track) (c : String) :
    l.findIdx? (fun t => t.track_id == c)
      = (l.map Track.track_id).findIdx? (fun s => s == c) := by
  rw [List.findIdx?_map]
  rfl

theorem getElem?_track_id {l l' : List Track}
    (hid : l.map Track.track_id = l'.map Track.track_id) (n : Nat) :
    (l[n]?).map Track.track_id = (l'[n]?).map Track.track_id := by
  rw [← List.getElem?_map, ← List.getElem?_map, hid]

theorem index_of_current_congr {q q' : QueueManager}
    (hid : q.tracks.map Track.track_id = q'.tracks.map Track.track_id)
    (hc : q.current_track_id = q'.current_track_id) :
    q.index_of_current = q'.index_of_current := by
  unfold QueueManager.index_of_current
  rw [hc, findIdx?_by_id, findIdx?_by_id, hid]

theorem get_after_update {q : QueueManager} {tid : String} {t : Track} {f : Track → Track}
    (hf : ∀ u, (f u).track_id = u.track_id)
    (ht : q.get tid = some t) :
    (QueueManager.mk (update_first tid f q.tracks) q.current_track_id).get tid
      = some (f t) := by
  unfold QueueManager.get at ht ⊢
  simp only
  rw [find?_update_first _ _ hf q.tracks, ht, Option.map_some']

theorem next_id_congr {q q' : QueueManager}
    (hid : q.tracks.map Track.track_id = q'.tracks.map Track.track_id)
    (hc : q.current_track_id = q'.current_track_id) :
    q.next_id = q'.next_id := by
  have hlen : q.tracks.length = q'.tracks.length := by
    simpa using congrArg List.length hid
  simp only [QueueManager.next_id]
  rw [index_of_current_congr hid hc, hlen, getElem?_track_id hid]

end PlayerController

namespace QueueManager

theorem trim_tracks_sorted (limit : Nat) (q : QueueManager)
    (hs : q.tracks.Sorted byCreated) : (trim limit q).tracks.Sorted byCreated := by
  unfold trim
  split
  · exact hs
  · exact (sortTracks_sorted q.tracks).sublist (trim_go_fst_sublist _ _ _ _)

end QueueManager

/-! ### Claim theorems -/

open QueueManager PlayerController

namespace QueueManager

theorem filterMap_parse_valid (l : List Track) :
    (l.map RawEntry.valid).filterMap parse_track = l := by
  rw [List.filterMap_map]
  exact List.filterMap_some l

theorem filterMap_filter_isSome {α β : Type} (f : α → Option β) (l : List α) :
    (l.filter (fun a => (f a).isSome)).filterMap f = l.filterMap f := by
  induction l with
  | nil => rfl
  | cons a ts ih =>
    cases hfa : f a with
    | none =>
      rw [List.filter_cons_of_neg (by simp [hfa]), List.filterMap_cons_none hfa, ih]
    | some b =>
      rw [List.filter_cons_of_pos (by simp [hfa]), List.filterMap_cons_some hfa,
        List.filterMap_cons_some hfa, ih]

theorem trim_tracks_subset (limit : Nat) (q : QueueManager) :
    ∀ t ∈ (trim limit q).tracks, t ∈ q.tracks := by
  intro t ht
  unfold trim at ht
  split at ht
  · exact ht
  · have := (trim_go_fst_sublist _ _ _ _).mem ht
    exact (sortTracks_perm q.tracks).mem_iff.mp this

theorem append_members (limit : Nat) (q : QueueManager) (track : Track) :
    ∀ t' ∈ ((q.append_if_new limit track).1).tracks, t' ∈ q.tracks ∨ t' = track := by
  intro t' ht'
  unfold append_if_new at ht'
  split at ht'
  · exact Or.inl ht'
  · split at ht'
    · exact Or.inl ht'
    · simp only at ht'
      rw [ensure_current_tracks] at ht'
      have h1 := trim_tracks_subset limit _ t' ht'
      have h2 : t' ∈ q.tracks ++ [track] :=
        (sortTracks_perm (q.tracks ++ [track])).mem_iff.mp h1
      rcases List.mem_append.mp h2 with h | h
      · exact Or.inl h
      · exact Or.inr (by simpa using h)

end QueueManager

/-- C10: `next_id` and `prev_id` return `none` not only at the queue
boundaries: whenever the current pointer is null or names an absent track
(`index_of_current = -1`) both are `none`; additionally `prev_id` is `none`
when the current track sits at index 0 and `next_id` is `none` at the last
index. -/
theorem C10_navigation_bounds (q : QueueManager) :
    (q.index_of_current = -1 → q.next_id = none ∧ q.prev_id = none) ∧
    (q.current_track_id = none → q.index_of_current = -1) ∧
    ((∀ t ∈ q.tracks, q.current_track_id ≠ some t.track_id) →
      q.index_of_current = -1) ∧
    (q.index_of_current = 0 → q.prev_id = none) ∧
    (q.index_of_current = (q.tracks.length : Int) - 1 → q.next_id = none) := by
  refine ⟨?_, ?_, ?_, ?_, ?_⟩
  · intro h
    constructor
    · simp [QueueManager.next_id, h]
    · simp [QueueManager.prev_id, h]
  · intro h
    simp [QueueManager.index_of_current, h, strTruthy]
  · intro h
    cases hc : q.current_track_id with
    | none => simp [QueueManager.index_of_current, hc, strTruthy]
    | some c =>
      by_cases he : c = ""
      · simp [QueueManager.index_of_current, hc, he, strTruthy]
      · have hnone : q.tracks.findIdx? (fun t => t.track_id == c) = none := by
          rw [List.findIdx?_eq_none_iff]
          intro x hx
          have := h x hx
          rw [hc] at this
          simp only [ne_eq, Option.some.injEq] at this
          simpa using fun hcc => this hcc.symm
        simp [QueueManager.index_of_current, hc, he, strTruthy, hnone]
  · intro h
    simp [QueueManager.prev_id, h]
  · intro h
    simp only [QueueManager.next_id]
    rw [h]
    by_cases h0 : (q.tracks.length : Int) - 1 < 0
    · rw [if_pos h0]
    · rw [if_neg h0, if_pos (by omega)]

/-- C2: `StatusUpdate` handling is rank-monotonic: the ranks of the statuses
follow the order queued/ready < downloading < playing/paused <
played/skipped/failed (after normalizing `ready` to `queued`); an event for an
absent id changes nothing; an update of strictly smaller rank changes nothing;
otherwise the (normalized) status is applied to the track. -/
theorem C2_status_monotonic (limit : Nat) (q : QueueManager)
    (tid : String) (st err : Option String) :
    (normalize_status "ready" = "queued" ∧
      status_rank "queued" = status_rank "ready" ∧
      status_rank "queued" < status_rank "downloading" ∧
      status_rank "downloading" < status_rank "playing" ∧
      status_rank "playing" = status_rank "paused" ∧
      status_rank "paused" < status_rank "played" ∧
      status_rank "played" = status_rank "skipped" ∧
      status_rank "skipped" = status_rank "failed") ∧
    (q.get tid = none →
      apply_event limit q (.track_status tid st err) = q) ∧
    (∀ t, q.get tid = some t →
      status_rank (normalize_status (st.getD t.status)) < status_rank t.status →
      apply_event limit q (.track_status tid st err) = q) ∧
    (∀ t, q.get tid = some t →
      status_rank t.status ≤ status_rank (normalize_status (st.getD t.status)) →
      ∃ t', (apply_event limit q (.track_status tid st err)).get tid = some t' ∧
        t'.status = normalize_status (st.getD t.status) ∧
        t'.track_id = t.track_id) := by
  refine ⟨by decide, ?_, ?_, ?_⟩
  · intro h
    simp only [apply_event]
    rw [h]
  · intro t ht hrank
    simp only [apply_event]
    rw [ht]
    simp only [if_pos hrank]
  · intro t ht hrank
    simp only [apply_event]
    rw [ht]
    dsimp only
    rw [if_neg (by omega)]
    refine ⟨_, get_after_update ?_ ht, ?_, ?_⟩
    · intro u
      by_cases he : strTruthy err <;> simp [he]
    · by_cases he : strTruthy err <;> simp [he]
    · by_cases he : strTruthy err <;> simp [he]

/-- C7: the track list is sorted ascending by `created_ts` after every
mutating queue operation: unconditionally after `load` and `clear`, and
preserved by `append_if_new`, `trim` and `set_current`. -/
theorem C7_sorted_after_ops (limit : Nat) (q : QueueManager) (data : QueueFileData)
    (track : Track) (tid : Option String) :
    (QueueManager.load data).tracks.Sorted byCreated ∧
    (q.tracks.Sorted byCreated →
      ((q.append_if_new limit track).1).tracks.Sorted byCreated) ∧
    (q.tracks.Sorted byCreated → (trim limit q).tracks.Sorted byCreated) ∧
    ((QueueManager.clear q).tracks.Sorted byCreated) ∧
    (q.tracks.Sorted byCreated → (q.set_current tid).tracks.Sorted byCreated) := by
  refine ⟨?_, ?_, ?_, ?_, ?_⟩
  · show (ensure_current _).tracks.Sorted byCreated
    rw [ensure_current_tracks]
    exact sortTracks_sorted _
  · intro hs
    unfold append_if_new
    split
    · exact hs
    · split
      · exact hs
      · simp only
        rw [ensure_current_tracks]
        exact trim_tracks_sorted limit _ (sortTracks_sorted _)
  · exact trim_tracks_sorted limit q
  · simp [QueueManager.clear, List.Sorted]
  · intro hs
    rw [set_current_tracks]
    exact hs

/-- C8: immediately after the queue operations complete, the current pointer
is null or names a present track, and it is null only when the queue is
empty: established by `load`, `set_current`, `clear` and a successful
`append_if_new`, preserved by `sort`, a rejecting `append_if_new`, and by
`trim` (whose eviction predicate protects a truthy current id; track ids are
nonempty by construction). -/
theorem C8_current_pointer (limit : Nat) (q : QueueManager) (data : QueueFileData)
    (track : Track) (tid : Option String) :
    current_inv (QueueManager.load data) ∧
    current_inv (q.set_current tid) ∧
    current_inv (QueueManager.clear q) ∧
    (current_inv q → current_inv q.sort) ∧
    (current_inv q → current_inv (q.append_if_new limit track).1) ∧
    (current_inv q → (∀ t ∈ q.tracks, t.track_id ≠ "") →
      current_inv (trim limit q)) := by
  refine ⟨?_, ?_, ?_, ?_, ?_, ?_⟩
  · exact current_inv_ensure _
  · exact current_inv_ensure _
  · show current_inv ⟨[], none⟩
    simp [current_inv]
  · intro h
    refine current_inv_tracks_congr (sort_current q).symm ?_ ?_ h
    · intro t
      show t ∈ q.tracks ↔ t ∈ sortTracks q.tracks
      exact ((sortTracks_perm q.tracks).mem_iff).symm
    · show q.tracks = [] ↔ sortTracks q.tracks = []
      constructor
      · intro hn
        rw [hn]
        rfl
      · intro hn
        have hp := sortTracks_perm q.tracks
        rw [hn] at hp
        exact hp.symm.eq_nil
  · intro h
    unfold append_if_new
    split
    · exact h
    · split
      · exact h
      · exact current_inv_ensure _
  · intro hinv hne
    unfold current_inv at hinv ⊢
    rw [trim_current]
    cases hc : q.current_track_id with
    | none =>
      rw [hc] at hinv
      unfold trim
      rw [if_pos (by rw [hinv]; simp)]
      exact hinv
    | some c =>
      rw [hc] at hinv
      obtain ⟨t, ht, he⟩ := hinv
      have hcne : c ≠ "" := he ▸ hne t ht
      have hnr : removable (some c) t = false := by
        simp [removable, strTruthy, hcne, he]
      refine ⟨t, ?_, he⟩
      unfold trim
      split
      · exact ht
      · rw [hc]
        exact trim_go_keeps_nonremovable _ _ _
          (((sortTracks_perm q.tracks).mem_iff).mpr ht) hnr

/-- C9: persisting then reloading a valid queue state (valid current pointer)
reproduces the same tracks (as a permutation, hence the same id set and the
same status per track) and the same current pointer; and entries that fail
individual deserialization are dropped without making the load fail: loading
arbitrary data equals loading only its deserializable entries. -/
theorem C9_roundtrip (q : QueueManager) (data : QueueFileData) :
    (current_inv q → (∀ c, q.current_track_id = some c → c ≠ "") →
      List.Perm (QueueManager.load (QueueManager.save q)).tracks q.tracks ∧
      (QueueManager.load (QueueManager.save q)).current_track_id
        = q.current_track_id) ∧
    QueueManager.load data =
      QueueManager.load
        { tracks := data.tracks.filter (fun r => (parse_track r).isSome),
          current_track_id := data.current_track_id } := by
  constructor
  · intro hinv hne
    have h1 : QueueManager.load (QueueManager.save q)
        = ensure_current (QueueManager.mk (sortTracks q.tracks) q.current_track_id) := by
      unfold QueueManager.load QueueManager.save QueueManager.sort
      dsimp only
      rw [filterMap_parse_valid]
    rw [h1]
    unfold current_inv at hinv
    cases hc : q.current_track_id with
    | none =>
      rw [hc] at hinv
      have hnil : q.tracks = [] := hinv
      rw [hnil]
      exact ⟨by decide, by decide⟩
    | some c =>
      rw [hc] at hinv
      have hex : ∃ t ∈ q.tracks, t.track_id = c := hinv
      obtain ⟨t, ht, hid⟩ := hex
      have hcne : c ≠ "" := hne c hc
      have hmem : t ∈ sortTracks q.tracks := (sortTracks_perm q.tracks).mem_iff.mpr ht
      unfold ensure_current
      rw [if_pos ?_]
      · exact ⟨sortTracks_perm q.tracks, rfl⟩
      · rw [Bool.and_eq_true]
        constructor
        · simp [strTruthy, hcne]
        · simp only [Option.getD_some]
          unfold QueueManager.get
          rw [List.find?_isSome]
          exact ⟨t, hmem, by simpa using hid⟩
  · unfold QueueManager.load
    simp only [filterMap_filter_isSome]

namespace PlayerController

theorem ctrl_set_current_tracks (q : QueueManager) (tid : Option String) :
    (ctrl_set_current q tid).tracks = q.tracks := by
  unfold ctrl_set_current
  split
  · exact set_current_tracks q tid
  · rfl

theorem ctrl_set_current_present {q : QueueManager} {n : String}
    (hne : n ≠ "") (hmem : ∃ t ∈ q.tracks, t.track_id = n) :
    (ctrl_set_current q (some n)).current_track_id = some n := by
  obtain ⟨t, ht, hid⟩ := hmem
  unfold ctrl_set_current
  rw [if_pos (by simp [strTruthy, hne])]
  unfold QueueManager.set_current QueueManager.ensure_current
  rw [if_pos ?_]
  · rw [Bool.and_eq_true]
    constructor
    · simp [strTruthy, hne]
    · simp only [Option.getD_some]
      unfold QueueManager.get
      rw [List.find?_isSome]
      exact ⟨t, ht, by simpa using hid⟩

theorem mark_current_current_id (q : QueueManager) (st : String) :
    (mark_current q st).current_track_id = q.current_track_id := by
  unfold mark_current
  split <;> rfl

theorem mark_current_map_id (q : QueueManager) (st : String) :
    (mark_current q st).tracks.map Track.track_id = q.tracks.map Track.track_id := by
  unfold mark_current
  split
  · rfl
  · rename_i t _
    exact update_first_map_track_id t.track_id
      (fun u => { u with status := st }) (fun u => rfl) q.tracks

theorem mark_current_next_id (q : QueueManager) (st : String) :
    (mark_current q st).next_id = q.next_id :=
  next_id_congr (mark_current_map_id q st) (mark_current_current_id q st)

theorem current_get {q : QueueManager} {t : Track} (h : q.current = some t) :
    q.get t.track_id = some t ∧ q.current_track_id = some t.track_id := by
  unfold QueueManager.current at h
  split at h
  · rename_i hc
    unfold QueueManager.get at h
    have hid : t.track_id = q.current_track_id.getD "" := by
      have := List.find?_some h
      simpa using this
    refine ⟨?_, ?_⟩
    · unfold QueueManager.get
      rw [hid]
      exact h
    · cases hcc : q.current_track_id with
      | none => rw [hcc] at hc; simp [strTruthy] at hc
      | some c =>
        rw [hcc] at hid
        simp only [Option.getD_some] at hid
        rw [hid]
  · cases h

theorem next_id_none_of_current_none {q : QueueManager} (h : q.current = none) :
    q.next_id = none := by
  have hidx : q.index_of_current = -1 := by
    unfold QueueManager.current at h
    unfold QueueManager.index_of_current
    split at h
    · rename_i hst
      rw [if_pos hst]
      unfold QueueManager.get at h
      rw [List.find?_eq_none] at h
      have : q.tracks.findIdx?
          (fun t => t.track_id == q.current_track_id.getD "") = none := by
        rw [List.findIdx?_eq_none_iff]
        intro x hx
        have := h x hx
        simpa using this
      rw [this]
    · rename_i hst
      rw [if_neg hst]
  simp [QueueManager.next_id, hidx]

theorem next_id_mem {q : QueueManager} {n : String} (h : q.next_id = some n) :
    ∃ t ∈ q.tracks, t.track_id = n := by
  simp only [QueueManager.next_id] at h
  split at h
  · cases h
  · split at h
    · cases h
    · rw [Option.map_eq_some'] at h
      obtain ⟨u, hu, hid⟩ := h
      exact ⟨u, List.getElem?_mem hu, hid⟩

theorem mark_current_get {q : QueueManager} {t : Track} (st : String)
    (h : q.current = some t) :
    (mark_current q st).get t.track_id = some { t with status := st } := by
  obtain ⟨hget, -⟩ := current_get h
  unfold mark_current
  rw [h]
  exact get_after_update (fun u => rfl) hget

end PlayerController

/-- C4 (amended): `next_track(auto)` marks the current track `played` (auto)
or `skipped` (manual) whenever a current track exists, regardless of its
previous status; with no current track, or when `next_id()` yields no (truthy)
successor, it reports end of queue and leaves the current pointer unchanged;
with a nonempty successor id it advances the current pointer to it. -/
theorem C4_next_track (auto : Bool) (q : QueueManager) :
    (∀ t, q.current = some t →
      ∃ t', (next_track auto q).queue.get t.track_id = some t' ∧
        t'.status = (if auto then "played" else "skipped")) ∧
    (q.current = none → (next_track auto q).queue = q ∧
      (next_track auto q).end_of_queue = true) ∧
    (q.next_id = none → (next_track auto q).end_of_queue = true ∧
      (next_track auto q).queue.current_track_id = q.current_track_id) ∧
    (∀ n, q.next_id = some n → n ≠ "" →
      (next_track auto q).end_of_queue = false ∧
      (next_track auto q).queue.current_track_id = some n) := by
  refine ⟨?_, ?_, ?_, ?_⟩
  · intro t hcur
    refine ⟨{ t with status := if auto then "played" else "skipped" }, ?_, rfl⟩
    unfold next_track
    generalize (if auto = true then "played" else "skipped") = st
    have hget := mark_current_get st hcur
    dsimp only
    by_cases hst : strTruthy (mark_current q st).next_id = true
    · rw [if_pos hst]
      dsimp only
      rw [get_tracks_eq (ctrl_set_current_tracks _ _) t.track_id]
      exact hget
    · rw [if_neg hst]
      exact hget
  · intro hcur
    have hq1 : mark_current q (if auto then "played" else "skipped") = q := by
      unfold mark_current
      rw [hcur]
    have hnid : q.next_id = none := next_id_none_of_current_none hcur
    unfold next_track
    dsimp only
    rw [hq1, hnid]
    exact ⟨rfl, rfl⟩
  · intro hnid
    unfold next_track
    dsimp only
    rw [mark_current_next_id, hnid]
    exact ⟨rfl, mark_current_current_id q _⟩
  · intro n hnid hne
    unfold next_track
    dsimp only
    rw [mark_current_next_id, hnid]
    rw [if_pos (by simp [strTruthy, hne])]
    refine ⟨rfl, ?_⟩
    refine ctrl_set_current_present hne ?_
    have h1 : (mark_current q (if auto then "played" else "skipped")).next_id
        = some n := by rw [mark_current_next_id, hnid]
    exact next_id_mem h1

def c4_track : Track :=
  { track_id := "A", source := "da", created_ts := 0, url := "u", title := "a",
    status := "failed" }

def c4_queue : QueueManager :=
  { tracks := [c4_track], current_track_id := some "A" }

/-- C4 counterexample: the claim would leave a current track whose status is
`failed` (not an active or defaulted state) unmarked, but `next_track` marks
it unconditionally: with current = A in status `failed` and no successor,
`next_track(auto=true)` sets A to `played` (while, as claimed, reporting end
of queue and keeping the current pointer). -/
theorem C4_counterexample :
    c4_queue.current = some c4_track ∧ c4_track.status = "failed" ∧
    ((next_track true c4_queue).queue.get "A").map Track.status = some "played" ∧
    (next_track true c4_queue).end_of_queue = true ∧
    (next_track true c4_queue).queue.current_track_id = some "A" := by decide

/-- C5 (amended): `Log`, `NewTrack` and `StatusUpdate` events never move a
track out of `played`/`skipped`/`failed` (a `Log` changes nothing, a
`NewTrack` only inserts or evicts whole tracks, and a `StatusUpdate` applied
over a terminal status can only write another terminal status); a
`DownloadDone` event, however, resets any track that is not
`playing`/`paused` — including a terminal one — to `queued`. -/
theorem C5_terminal_statuses (limit : Nat) (q : QueueManager) :
    (∀ msg, apply_event limit q (.log msg) = q) ∧
    (∀ t t', t' ∈ (apply_event limit q (.new_track t)).tracks →
      t' ∈ q.tracks ∨ t' = t) ∧
    (∀ tid st err t', t' ∈ (apply_event limit q (.track_status tid st err)).tracks →
      t' ∈ q.tracks ∨ ∃ u ∈ q.tracks, t'.track_id = u.track_id ∧
        ((u.status = "played" ∨ u.status = "skipped" ∨ u.status = "failed") →
          (t'.status = "played" ∨ t'.status = "skipped" ∨ t'.status = "failed"))) ∧
    (∀ tid path t, q.get tid = some t → t.status ≠ "playing" → t.status ≠ "paused" →
      ∃ t', (apply_event limit q (.download_done tid path)).get tid = some t' ∧
        t'.status = "queued" ∧ t'.local_path = some path) := by
  refine ⟨fun msg => rfl, ?_, ?_, ?_⟩
  · intro t t' ht'
    simp only [apply_event] at ht'
    rcases hap : q.append_if_new limit t with ⟨q1, b⟩
    rw [hap] at ht'
    have key : t' ∈ q1.tracks → t' ∈ q.tracks ∨ t' = t := by
      intro h2
      refine append_members limit q t t' ?_
      rw [hap]
      exact h2
    cases b with
    | false =>
      dsimp only at ht'
      exact key ht'
    | true =>
      dsimp only at ht'
      split at ht'
      · rw [show (ctrl_set_current q1.sort (some t.track_id)).tracks
            = q1.sort.tracks from ctrl_set_current_tracks _ _] at ht'
        exact key ((sortTracks_perm q1.tracks).mem_iff.mp ht')
      · exact key ((sortTracks_perm q1.tracks).mem_iff.mp ht')
  · intro tid st err t' ht'
    simp only [apply_event] at ht'
    cases hget : q.get tid with
    | none =>
      rw [hget] at ht'
      exact Or.inl ht'
    | some t =>
      rw [hget] at ht'
      dsimp only at ht'
      split at ht'
      · exact Or.inl ht'
      · rename_i hrank
        unfold QueueManager.get at hget
        rcases mem_update_first hget t' ht' with h | h
        · exact Or.inl h
        · right
          refine ⟨t, List.mem_of_find?_eq_some hget, ?_, ?_⟩
          · rw [h]
            by_cases he : strTruthy err <;> simp [he]
          · intro hterm
            have h4 : status_rank t.status = 4 := rank_of_terminal hterm
            have h5 : 4 ≤ status_rank (normalize_status (st.getD t.status)) := by
              omega
            have h6 := terminal_of_rank_ge_four h5
            have h7 : t'.status = normalize_status (st.getD t.status) := by
              rw [h]
              by_cases he : strTruthy err <;> simp [he]
            rw [h7]
            exact h6
  · intro tid path t hget hpl hpa
    simp only [apply_event]
    rw [hget]
    dsimp only
    refine ⟨_, get_after_update ?_ hget, ?_, ?_⟩
    · intro u
      by_cases hc : u.status ≠ "playing" ∧ u.status ≠ "paused" <;> simp [hc]
    · simp [hpl, hpa]
    · simp [hpl, hpa]

def c5_track : Track :=
  { track_id := "P", source := "da", created_ts := 0, url := "u", title := "p",
    status := "played" }

def c5_queue : QueueManager :=
  { tracks := [c5_track], current_track_id := some "P" }

/-- C5 counterexample: a `DownloadDone` event handled in the drain cycle moves
a track out of the terminal status `played` back to `queued`. -/
theorem C5_counterexample :
    c5_queue.get "P" = some c5_track ∧ c5_track.status = "played" ∧
    ((apply_event 50 c5_queue (.download_done "P" "f.mp3")).get "P").map Track.status
      = some "queued" := by decide

/-- C6 (amended): after an acquisition failure the failure event marks the
track `failed` with the error text (`failed` has maximal rank, so the update
always applies), and the cycle's event batch covers every selected target
independently; however the worker's target-selection does not exclude
`failed`: a failed track in the acquisition window with no local artifact is
selected for download again. -/
theorem C6_failure_handling (limit : Nat) (q : QueueManager) (tid e : String)
    (fe : String → Bool) (fetch : Track → Except String String) :
    (∀ t, q.get tid = some t → e ≠ "" →
      ∃ t', (apply_event limit q (.track_status tid (some "failed") (some e))).get tid
          = some t' ∧ t'.status = "failed" ∧ t'.error = some e) ∧
    (∀ t ∈ download_targets q, t.status = "failed" → t.local_path = none →
      t ∈ (download_targets q).filter (attempts_download fe)) ∧
    (∀ t ∈ (download_targets q).filter (attempts_download fe),
      UIEvent.track_status t.track_id (some "downloading") none
        ∈ download_cycle_events fe fetch q) := by
  refine ⟨?_, ?_, ?_⟩
  · intro t hget he
    have hes : strTruthy (some e) = true := by simp [strTruthy, he]
    simp only [apply_event]
    rw [hget]
    dsimp only
    rw [if_neg ?_]
    · refine ⟨_, get_after_update ?_ hget, ?_, ?_⟩
      · intro u
        simp [hes]
      · simp [hes, normalize_status]
      · simp [hes]
    · have h4 := status_rank_le_four t.status
      have h5 : (some "failed").getD t.status = "failed" := rfl
      rw [h5]
      have h6 : status_rank (normalize_status "failed") = 4 := by decide
      omega
  · intro t ht hst hlp
    rw [List.mem_filter]
    refine ⟨ht, ?_⟩
    simp [attempts_download, hst, hlp, strTruthy]
  · intro t ht
    unfold download_cycle_events
    rw [List.mem_flatMap]
    refine ⟨t, ht, ?_⟩
    cases fetch t <;> simp

def c6_track : Track :=
  { track_id := "F", source := "da", created_ts := 0, url := "u", title := "f",
    status := "failed" }

def c6_queue : QueueManager :=
  { tracks := [c6_track], current_track_id := some "F" }

/-- C6 counterexample: a track in status `failed` with no local artifact is
not excluded by the acquisition worker's target-selection — as the current
track it is selected for download again on the next cycle. -/
theorem C6_counterexample :
    c6_track.status = "failed" ∧
    (download_targets c6_queue).filter (attempts_download (fun _ => false))
      = [c6_track] := by decide

/-! ### C1: the dedup invariant of `append_if_new` -/

/-- Two tracks compatible with the claimed dedup invariant: distinct ids, and
equal urls only when the `created_ts` gap exceeds 2.0 seconds. -/
def compatible (a b : Track) : Prop :=
  a.track_id ≠ b.track_id ∧ (a.url = b.url → ¬ |a.created_ts - b.created_ts| ≤ 2)

instance : DecidableRel compatible := fun a b => by
  unfold compatible
  infer_instance

theorem compatible_symm {a b : Track} (h : compatible a b) : compatible b a := by
  refine ⟨Ne.symm h.1, ?_⟩
  intro hu hab
  exact h.2 hu.symm (by rwa [abs_sub_comm])

/-- The claimed pairwise dedup invariant of the queue. -/
def queue_inv (l : List Track) : Prop := l.Pairwise compatible

instance (l : List Track) : Decidable (queue_inv l) := by
  unfold queue_inv
  infer_instance

/-- A sequence of `append_if_new` calls folded over the queue state. -/
def append_run (limit : Nat) (q : QueueManager) (ts : List Track) : QueueManager :=
  ts.foldl (fun acc t => (acc.append_if_new limit t).1) q

namespace QueueManager

theorem queue_inv_insert (limit : Nat) (q : QueueManager) (track : Track)
    (hinv : queue_inv q.tracks)
    (hcompat : ∀ t ∈ q.tracks, compatible t track) :
    queue_inv ((ensure_current (trim limit
      (QueueManager.sort { q with tracks := q.tracks ++ [track] }))).tracks) := by
  rw [ensure_current_tracks]
  have hbase : (q.tracks ++ [track]).Pairwise compatible := by
    rw [List.pairwise_append]
    refine ⟨hinv, by simp [List.Pairwise], ?_⟩
    intro a ha b hb
    rw [List.mem_singleton] at hb
    subst hb
    exact hcompat a ha
  have hsort1 : ∀ l : List Track, l.Pairwise compatible →
      (sortTracks l).Pairwise compatible :=
    fun l hl => hl.perm (sortTracks_perm l).symm (fun h => compatible_symm h)
  have hsorted := hsort1 _ hbase
  unfold queue_inv trim
  split
  · exact hsorted
  · exact (hsort1 _ hsorted).sublist (trim_go_fst_sublist _ _ _ _)

theorem queue_inv_append (limit : Nat) (q : QueueManager) (track : Track)
    (hinv : queue_inv q.tracks) :
    queue_inv ((q.append_if_new limit track).1).tracks := by
  unfold append_if_new
  split
  · exact hinv
  · split
    · exact hinv
    · rename_i h1 h2
      dsimp only
      refine queue_inv_insert limit q track hinv ?_
      intro t ht
      constructor
      · intro he
        refine h1 ?_
        rw [List.any_eq_true]
        exact ⟨t, ht, by simpa using he⟩
      · intro hu habs
        refine h2 ?_
        rw [List.any_eq_true]
        refine ⟨t, ht, ?_⟩
        rw [Bool.and_eq_true]
        exact ⟨by simpa using hu, by simpa using habs⟩

theorem queue_inv_run (limit : Nat) (ts : List Track) :
    ∀ q : QueueManager, queue_inv q.tracks →
      queue_inv (append_run limit q ts).tracks := by
  induction ts with
  | nil => exact fun q h => h
  | cons a ts ih => exact fun q h => ih _ (queue_inv_append limit q a h)

end QueueManager

/-- C1: `append_if_new` returns `(q, false)` without mutation when an entry
with the same id exists, or when some entry has the same url with `created_ts`
within 2.0 seconds; otherwise it appends, re-sorts, trims and ensures a
current pointer, returning `true`; consequently it preserves, over any
sequence of calls, the invariant that no two tracks share an id and no two
tracks share a url with `created_ts` gap at most 2.0 seconds. -/
theorem C1_append_dedup (limit : Nat) (q : QueueManager) (track : Track) :
    ((∃ t ∈ q.tracks, t.track_id = track.track_id) →
      q.append_if_new limit track = (q, false)) ∧
    ((¬ ∃ t ∈ q.tracks, t.track_id = track.track_id) →
      (∃ t ∈ q.tracks, t.url = track.url ∧ |t.created_ts - track.created_ts| ≤ 2) →
      q.append_if_new limit track = (q, false)) ∧
    ((¬ ∃ t ∈ q.tracks, t.track_id = track.track_id) →
      (¬ ∃ t ∈ q.tracks, t.url = track.url ∧ |t.created_ts - track.created_ts| ≤ 2) →
      q.append_if_new limit track =
        (ensure_current (QueueManager.trim limit
          (QueueManager.sort { q with tracks := q.tracks ++ [track] })), true)) ∧
    (queue_inv q.tracks → queue_inv ((q.append_if_new limit track).1).tracks) ∧
    (queue_inv q.tracks →
      ∀ ts : List Track, queue_inv (append_run limit q ts).tracks) := by
  have hg1 : q.tracks.any (fun t => t.track_id == track.track_id) = true ↔
      ∃ t ∈ q.tracks, t.track_id = track.track_id := by
    simp [List.any_eq_true]
  have hg2 : q.tracks.any (fun t => t.url == track.url &&
      decide (|t.created_ts - track.created_ts| ≤ 2)) = true ↔
      ∃ t ∈ q.tracks, t.url = track.url ∧ |t.created_ts - track.created_ts| ≤ 2 := by
    simp [List.any_eq_true]
  refine ⟨?_, ?_, ?_, ?_, ?_⟩
  · intro h
    unfold QueueManager.append_if_new
    rw [if_pos (hg1.mpr h)]
  · intro h1 h2
    unfold QueueManager.append_if_new
    rw [if_neg (fun hc => h1 (hg1.mp hc)), if_pos (hg2.mpr h2)]
  · intro h1 h2
    unfold QueueManager.append_if_new
    rw [if_neg (fun hc => h1 (hg1.mp hc)), if_neg (fun hc => h2 (hg2.mp hc))]
  · exact queue_inv_append limit q track
  · exact fun hinv ts => queue_inv_run limit ts q hinv

/-! ### C3: trimming -/

/-- The claimed soft-capacity condition: within the limit, or every track
protected (`playing`/`paused`, or named by the current pointer). -/
def capacity_inv (limit : Nat) (q : QueueManager) : Prop :=
  q.tracks.length ≤ limit ∨ ∀ t ∈ q.tracks,
    t.status = "playing" ∨ t.status = "paused" ∨
      q.current_track_id = some t.track_id

theorem strTruthy_iff (o : Option String) :
    strTruthy o = true ↔ ∃ c, o = some c ∧ c ≠ "" := by
  cases o <;> simp [strTruthy]

namespace QueueManager

theorem removable_true_elim {keep : Option String} {t : Track}
    (h : removable keep t = true) :
    t.status ≠ "playing" ∧ t.status ≠ "paused" ∧
      (∀ c, keep = some c → c ≠ "" → t.track_id ≠ c) := by
  refine ⟨?_, ?_, ?_⟩
  · intro hc
    unfold removable at h
    rw [hc] at h
    simp at h
  · intro hc
    unfold removable at h
    rw [hc] at h
    simp at h
  · intro c hk hcne hid
    unfold removable at h
    rw [hk, hid] at h
    simp [strTruthy, hcne] at h

theorem not_removable_iff (keep : Option String) (t : Track) :
    removable keep t = false ↔
      (strTruthy keep = true ∧ t.track_id = keep.getD "") ∨
        t.status = "playing" ∨ t.status = "paused" := by
  unfold removable
  cases h1 : strTruthy keep <;> cases h2 : t.track_id == keep.getD "" <;>
    cases h3 : t.status == "playing" <;> cases h4 : t.status == "paused" <;>
      simp_all

theorem trim_go_no_removable {fuel limit : Nat} {keep : Option String}
    {l : List Track} (h : remove_first_removable keep l = none) :
    trim_go fuel limit keep l = (l, []) := by
  cases fuel with
  | zero => rfl
  | succ fuel =>
    rw [trim_go]
    split
    · rfl
    · rw [h]

theorem capacity_inv_after_trim (limit : Nat) (q2 : QueueManager) :
    capacity_inv limit (ensure_current (trim limit q2)) := by
  unfold capacity_inv
  by_cases hle : q2.tracks.length ≤ limit
  · have heq : trim limit q2 = q2 := by unfold trim; rw [if_pos hle]
    left
    rw [ensure_current_tracks, heq]
    exact hle
  · have heq : (trim limit q2).tracks
        = (trim_go (sortTracks q2.tracks).length limit q2.current_track_id
            (sortTracks q2.tracks)).1 := by
      unfold trim
      rw [if_neg hle]
    rcases trim_go_post (sortTracks q2.tracks).length limit q2.current_track_id
        (le_refl _) with hpost | hpost
    · left
      rw [ensure_current_tracks, heq]
      exact hpost
    · right
      intro t ht
      have htmem : t ∈ (trim limit q2).tracks := by
        rw [ensure_current_tracks] at ht
        exact ht
      have hnr : removable q2.current_track_id t = false := by
        refine hpost t ?_
        rw [← heq]
        exact htmem
      rcases (not_removable_iff q2.current_track_id t).mp hnr with ⟨htr, hid⟩ | hpl | hpa
      · right; right
        obtain ⟨c, hc, hcne⟩ := (strTruthy_iff _).mp htr
        rw [hc] at hid
        simp only [Option.getD_some] at hid
        have hcur : (trim limit q2).current_track_id = some c := by
          rw [trim_current]
          exact hc
        unfold ensure_current
        rw [if_pos ?_]
        · rw [hcur, hid]
        · rw [Bool.and_eq_true]
          constructor
          · rw [hcur]
            simp [strTruthy, hcne]
          · rw [hcur]
            simp only [Option.getD_some]
            unfold QueueManager.get
            rw [List.find?_isSome]
            exact ⟨t, htmem, by simpa using hid⟩
      · exact Or.inl hpl
      · exact Or.inr (Or.inl hpa)

end QueueManager

/-- C3 (amended): trimming only evicts removable tracks — never the (truthy,
nonempty) current id, never `playing`/`paused` — oldest first (each victim's
`created_ts` is at most that of every surviving eligible track, and the
victims come out in ascending `created_ts` order); the kept tracks plus the
victims are a permutation of the queue; with no eligible victim nothing is
removed even above capacity; afterwards the queue is within the limit or
every remaining track is protected; and `append_if_new` (the one operation
that trims) preserves the soft-capacity condition — `load` does not trim, so
the claimed bound after *any* operation fails there (see the
counterexample). -/
theorem C3_trim_spec (limit : Nat) (q : QueueManager) (track : Track) :
    (∀ v ∈ trim_removed limit q,
      v.status ≠ "playing" ∧ v.status ≠ "paused" ∧
        (∀ c, q.current_track_id = some c → c ≠ "" → v.track_id ≠ c)) ∧
    (∀ v ∈ trim_removed limit q, ∀ u ∈ (QueueManager.trim limit q).tracks,
      removable q.current_track_id u = true → v.created_ts ≤ u.created_ts) ∧
    (trim_removed limit q).Sorted byCreated ∧
    List.Perm ((QueueManager.trim limit q).tracks ++ trim_removed limit q) q.tracks ∧
    ((∀ t ∈ q.tracks, removable q.current_track_id t = false) →
      trim_removed limit q = [] ∧
      List.Perm (QueueManager.trim limit q).tracks q.tracks) ∧
    ((QueueManager.trim limit q).tracks.length ≤ limit ∨
      ∀ u ∈ (QueueManager.trim limit q).tracks,
        removable q.current_track_id u = false) ∧
    (capacity_inv limit q → capacity_inv limit (q.append_if_new limit track).1) := by
  refine ⟨?_, ?_, ?_, ?_, ?_, ?_, ?_⟩
  · intro v hv
    unfold trim_removed at hv
    split at hv
    · simp at hv
    · exact removable_true_elim
        (trim_go_snd_mem _ _ _ (sortTracks q.tracks) v hv).2
  · intro v hv u hu hru
    unfold trim_removed at hv
    split at hv
    · simp at hv
    · rename_i hgt
      have hu2 : u ∈ (trim_go (sortTracks q.tracks).length limit
          q.current_track_id (sortTracks q.tracks)).1 := by
        unfold QueueManager.trim at hu
        rw [if_neg hgt] at hu
        exact hu
      exact trim_go_oldest _ _ _ (sortTracks_sorted q.tracks) v hv u hu2 hru
  · unfold trim_removed
    split
    · simp [List.Sorted]
    · exact trim_go_snd_sorted _ _ _ (sortTracks_sorted q.tracks)
  · unfold QueueManager.trim trim_removed
    split
    · simp
    · exact (trim_go_perm _ _ _ _).trans (sortTracks_perm q.tracks)
  · intro h
    have hnone : remove_first_removable q.current_track_id (sortTracks q.tracks)
        = none := by
      rw [remove_first_removable_none]
      intro u hu
      exact h u ((sortTracks_perm q.tracks).mem_iff.mp hu)
    unfold QueueManager.trim trim_removed
    split
    · exact ⟨rfl, List.Perm.refl _⟩
    · rw [trim_go_no_removable hnone]
      exact ⟨rfl, sortTracks_perm q.tracks⟩
  · unfold QueueManager.trim
    split
    · rename_i hle
      exact Or.inl hle
    · exact trim_go_post _ _ _ (le_refl _)
  · intro hcap
    unfold QueueManager.append_if_new
    split
    · exact hcap
    · split
      · exact hcap
      · exact capacity_inv_after_trim limit _

def c3_track1 : Track :=
  { track_id := "X1", source := "da", created_ts := 0, url := "u1", title := "x1" }

def c3_track2 : Track :=
  { track_id := "X2", source := "da", created_ts := 1, url := "u2", title := "x2" }

def c3_data : QueueFileData :=
  { tracks := [.valid c3_track1, .valid c3_track2], current_track_id := none }

/-- C3 counterexample: `load` performs no trimming, so with capacity 1 loading
two `queued` tracks leaves the queue above the limit although the excess track
is unprotected (neither current nor `playing`/`paused`) — the claimed bound
"after any operation" fails after `load`. -/
theorem C3_counterexample :
    (QueueManager.load c3_data).tracks.length = 2 ∧
    1 < (QueueManager.load c3_data).tracks.length ∧
    ∃ t ∈ (QueueManager.load c3_data).tracks,
      (QueueManager.load c3_data).current_track_id ≠ some t.track_id ∧
      t.status ≠ "playing" ∧ t.status ≠ "paused" := by decide

/-! ### Witnesses: the claim theorems applied at concrete inputs -/

def w_track : Track :=
  { track_id := "W1", source := "da", created_ts := 0, url := "w", title := "w" }

def w_track2 : Track :=
  { track_id := "W2", source := "dx", created_ts := 5, url := "w2", title := "w2" }

def w_queue : QueueManager :=
  { tracks := [w_track], current_track_id := some "W1" }

def w_playing : Track :=
  { track_id := "W1", source := "da", created_ts := 0, url := "w", title := "w",
    status := "playing" }

def w_qplay : QueueManager :=
  { tracks := [w_playing], current_track_id := some "W1" }

def w_qabs : QueueManager :=
  { tracks := [w_track], current_track_id := some "ZZ" }

theorem C1_witness :
    (∃ t ∈ w_queue.tracks, t.track_id = w_track.track_id) ∧
      w_queue.append_if_new 50 w_track = (w_queue, false) :=
  ⟨by decide, (C1_append_dedup 50 w_queue w_track).1 (by decide)⟩

theorem C2_witness :
    w_qplay.get "W1" = some w_playing ∧
      apply_event 50 w_qplay (.track_status "W1" (some "queued") none) = w_qplay :=
  ⟨by decide, (C2_status_monotonic 50 w_qplay "W1" (some "queued") none).2.2.1
    w_playing (by decide) (by decide)⟩

theorem C3_witness :
    (∀ t ∈ w_qplay.tracks, removable w_qplay.current_track_id t = false) ∧
      trim_removed 0 w_qplay = [] ∧
      List.Perm (QueueManager.trim 0 w_qplay).tracks w_qplay.tracks :=
  ⟨by decide, (C3_trim_spec 0 w_qplay w_track).2.2.2.2.1 (by decide)⟩

theorem C4_witness :
    w_queue.current = some w_track ∧
      ∃ t', (next_track true w_queue).queue.get w_track.track_id = some t' ∧
        t'.status = (if true then "played" else "skipped") :=
  ⟨by decide, (C4_next_track true w_queue).1 w_track (by decide)⟩

theorem C5_witness :
    w_queue.get "W1" = some w_track ∧
      ∃ t', (apply_event 50 w_queue (.download_done "W1" "p.mp3")).get "W1"
          = some t' ∧ t'.status = "queued" ∧ t'.local_path = some "p.mp3" :=
  ⟨by decide, (C5_terminal_statuses 50 w_queue).2.2.2 "W1" "p.mp3" w_track
    (by decide) (by decide) (by decide)⟩

theorem C6_witness :
    w_queue.get "W1" = some w_track ∧
      ∃ t', (apply_event 50 w_queue
          (.track_status "W1" (some "failed") (some "boom"))).get "W1"
          = some t' ∧ t'.status = "failed" ∧ t'.error = some "boom" :=
  ⟨by decide, (C6_failure_handling 50 w_queue "W1" "boom" (fun _ => false)
    (fun _ => .error "x")).1 w_track (by decide) (by decide)⟩

theorem C7_witness :
    w_queue.tracks.Sorted byCreated ∧
      ((w_queue.append_if_new 50 w_track2).1).tracks.Sorted byCreated :=
  ⟨by decide, (C7_sorted_after_ops 50 w_queue ⟨[], none⟩ w_track2 none).2.1
    (by decide)⟩

theorem C8_witness :
    current_inv w_queue ∧ (∀ t ∈ w_queue.tracks, t.track_id ≠ "") ∧
      current_inv (QueueManager.trim 0 w_queue) :=
  ⟨by decide, by decide,
    (C8_current_pointer 0 w_queue ⟨[], none⟩ w_track none).2.2.2.2.2
      (by decide) (by decide)⟩

theorem C9_witness :
    current_inv w_queue ∧
      List.Perm (QueueManager.load (QueueManager.save w_queue)).tracks
        w_queue.tracks ∧
      (QueueManager.load (QueueManager.save w_queue)).current_track_id
        = w_queue.current_track_id := by
  refine ⟨by decide, (C9_roundtrip w_queue ⟨[], none⟩).1 (by decide) ?_⟩
  intro c hc
  injection hc with h
  subst h
  decide

theorem C10_witness :
    w_qabs.index_of_current = -1 ∧ w_qabs.next_id = none ∧ w_qabs.prev_id = none :=
  ⟨by decide, (C10_navigation_bounds w_qabs).1 (by decide)⟩

end DonationMediaHub
